import Mathlib

/-!
Verification of the crawl-extract-classify-reconcile pipeline in
scripts/zonaprop_to_sheets.py.

The script is shallowly embedded: sheet tables become lists of row
structures, the HTTP layer becomes explicit outcome oracles passed as
function arguments, and Python exceptions become Option/Except results.
Machine integers do not matter here because Python integers are unbounded,
so all numeric fields are Int.
-/

/-- Configuration values read from the environment at startup
(MAX_USD, MAX_EXP, MIN_AMB, MAX_NEW_URLS_PER_RUN). -/
structure Config where
  MAX_USD : Int
  MAX_EXP : Int
  MIN_AMB : Int
  MAX_NEW_URLS_PER_RUN : Nat

/-- Record produced by extract_metrics.  Numeric fields are optional because
extraction may fail to find them; barrio is a plain string with the empty
string meaning "not detected", exactly as in the Python dict. -/
structure Metrics where
  title : String
  ambientes : Option Int
  price_usd : Option Int
  expensas_ars : Option Int
  barrio : String
  tipo : String
  balcon_patio : String

/-- Embedding of strict_ok (lines 249-267): the acceptance decision with its
first-violated-rule reason, in the exact order and with the exact comparison
operators of the source. -/
def strict_ok (cfg : Config) (d : Metrics) : Bool × String :=
  if d.barrio = "" then (false, "Falta barrio")
  else
    match d.ambientes with
    | none => (false, "Ambientes no cumple / falta")
    | some a =>
      if a < cfg.MIN_AMB then (false, "Ambientes no cumple / falta")
      else
        match d.price_usd with
        | none => (false, "Precio no cumple / falta")
        | some p =>
          if p > cfg.MAX_USD then (false, "Precio no cumple / falta")
          else
            match d.expensas_ars with
            | none => (false, "Faltan expensas (REVISAR)")
            | some e =>
              if e > cfg.MAX_EXP then (false, "Expensas > tope")
              else (true, "OK")

/-- Modelled from the spec: the reference acceptance rule chain of section 4.4,
written rule by rule in the fixed order (1) neighborhood absent, (2) rooms
absent or below minimum, (3) price absent or above maximum, (4) fee absent,
(5) fee above maximum, (6) accept; used only to compare with strict_ok. -/
def evaluateSpec (cfg : Config) (d : Metrics) : Bool × String :=
  if d.barrio = "" then (false, "Falta barrio")
  else if d.ambientes.elim true (fun a => decide (a < cfg.MIN_AMB)) then
    (false, "Ambientes no cumple / falta")
  else if d.price_usd.elim true (fun p => decide (p > cfg.MAX_USD)) then
    (false, "Precio no cumple / falta")
  else if d.expensas_ars.isNone then (false, "Faltan expensas (REVISAR)")
  else if d.expensas_ars.elim false (fun e => decide (e > cfg.MAX_EXP)) then
    (false, "Expensas > tope")
  else (true, "OK")

/-- C1: strict_ok coincides with the reference rule chain of the spec on every
record (so the reason is always the first violated rule), and the thresholds
are inclusive: a record passing rules 1-3 whose fee equals MAX_EXP is
accepted, while a record passing rules 1-2 whose price is MAX_USD + 1 is
rejected by the price rule. -/
theorem strict_ok_matches_spec_chain (cfg : Config) (d : Metrics) :
    strict_ok cfg d = evaluateSpec cfg d ∧
    (d.barrio ≠ "" → (∀ a, d.ambientes = some a → cfg.MIN_AMB ≤ a) →
      d.ambientes ≠ none →
      (∀ p, d.price_usd = some p → p ≤ cfg.MAX_USD) → d.price_usd ≠ none →
      d.expensas_ars = some cfg.MAX_EXP → strict_ok cfg d = (true, "OK")) ∧
    (d.barrio ≠ "" → (∀ a, d.ambientes = some a → cfg.MIN_AMB ≤ a) →
      d.ambientes ≠ none →
      d.price_usd = some (cfg.MAX_USD + 1) →
      strict_ok cfg d = (false, "Precio no cumple / falta")) := by
  refine ⟨?_, ?_, ?_⟩
  · unfold strict_ok evaluateSpec
    rcases d with ⟨t, amb, pr, ex, b, tp, bp⟩
    by_cases hb : b = "" <;> simp [hb]
    cases amb with
    | none => simp
    | some a =>
      simp only [Option.elim_some]
      by_cases ha : a < cfg.MIN_AMB <;> simp [ha]
      cases pr with
      | none => simp
      | some p =>
        simp only [Option.elim_some]
        by_cases hp : p > cfg.MAX_USD <;> simp [hp]
        cases ex with
        | none => simp
        | some e =>
          simp only [Option.elim_some, Option.isNone_some]
          by_cases he : e > cfg.MAX_EXP <;> simp [he]
  · intro hb hamb hambne hpr hprne hex
    unfold strict_ok
    rcases d with ⟨t, amb, pr, ex, b, tp, bp⟩
    simp only at hb hamb hambne hpr hprne hex ⊢
    simp only [hb, if_neg hb]
    cases amb with
    | none => exact absurd rfl hambne
    | some a =>
      have ha := hamb a rfl
      simp only [not_lt.mpr ha, if_false]
      cases pr with
      | none => exact absurd rfl hprne
      | some p =>
        have hp := hpr p rfl
        simp [not_lt.mpr hp, hex]
  · intro hb hamb hambne hpr
    unfold strict_ok
    rcases d with ⟨t, amb, pr, ex, b, tp, bp⟩
    simp only at hb hamb hambne hpr ⊢
    simp only [hb, if_neg hb]
    cases amb with
    | none => exact absurd rfl hambne
    | some a =>
      have ha := hamb a rfl
      simp only [not_lt.mpr ha, if_false]
      subst hpr
      simp

/-- Concrete instantiation of strict_ok_matches_spec_chain: with the default
thresholds, a record at the fee ceiling is accepted. -/
theorem strict_ok_matches_spec_chain_witness :
    strict_ok ⟨121000, 120000, 2, 120⟩
      ⟨"t", some 3, some 90000, some 120000, "belgrano", "Depto", "S"⟩ = (true, "OK") :=
  (strict_ok_matches_spec_chain ⟨121000, 120000, 2, 120⟩
      ⟨"t", some 3, some 90000, some 120000, "belgrano", "Depto", "S"⟩).2.1
    (by decide) (by intro a ha; cases ha; decide) (by decide)
    (by intro p hp; cases hp; decide) (by decide) rfl

/-- One row of the MASTER (accepted) tab, columns in sheet order
(lines 298-302).  The numeric min/max cells are read back through to_int,
which maps an absent or non-numeric cell to None; those cells are therefore
modeled directly as Option Int. -/
structure MasterRow where
  url : String
  portal : String
  barrio : String
  tipo : String
  ambientes : Option Int
  price_usd : Option Int
  expensas_ars : Option Int
  balcon_patio : String
  apto_credito : String
  title : String
  first_seen : String
  last_seen : String
  status : String
  price_min : Option Int
  price_max : Option Int
  exp_min : Option Int

/-- Models `current if prior is None else min(prior, current)` (line 339).
When the prior cell is numeric and the current value is None, Python raises
TypeError comparing int with None; that failure is the outer none. -/
def roll_min (prior current : Option Int) : Option (Option Int) :=
  match prior, current with
  | none, c => some c
  | some a, some b => some (some (min a b))
  | some _, none => none

/-- Models `current if prior is None else max(prior, current)` (line 340). -/
def roll_max (prior current : Option Int) : Option (Option Int) :=
  match prior, current with
  | none, c => some c
  | some a, some b => some (some (max a b))
  | some _, none => none

/-- The update branch of upsert_master (lines 326-345): recompute the rolling
price_min/price_max/exp_min cells, overwrite the current price and fee
(columns F:G) and last_seen/status/min/max cells (columns L:P).  Every other
column, in particular first_seen, is untouched. -/
def update_master_row (r : MasterRow) (d : Metrics) (ts : String) : Option MasterRow := do
  let pmin ← roll_min r.price_min d.price_usd
  let pmax ← roll_max r.price_max d.price_usd
  let emin ← roll_min r.exp_min d.expensas_ars
  pure { r with price_usd := d.price_usd, expensas_ars := d.expensas_ars,
                last_seen := ts, status := "Activo",
                price_min := pmin, price_max := pmax, exp_min := emin }

/-- The append branch of upsert_master (lines 347-352): a fresh row seeded
with first_seen = last_seen = ts and price_min = price_max = current price,
exp_min = current fee. -/
def new_master_row (url : String) (d : Metrics) (ts : String) : MasterRow :=
  { url := url, portal := "Zonaprop", barrio := d.barrio, tipo := d.tipo,
    ambientes := d.ambientes, price_usd := d.price_usd,
    expensas_ars := d.expensas_ars, balcon_patio := d.balcon_patio,
    apto_credito := "Validar", title := d.title, first_seen := ts,
    last_seen := ts, status := "Activo", price_min := d.price_usd,
    price_max := d.price_usd, exp_min := d.expensas_ars }

/-- Embedding of upsert_master (lines 320-353): the first row whose url cell
equals the key is updated in place; if no row matches, a new row is appended
at the end.  The outer none models the TypeError escaping from the update
arithmetic. -/
def upsert_master (ws : List MasterRow) (url : String) (d : Metrics)
    (ts : String) : Option (List MasterRow × String) :=
  match ws with
  | [] => some ([new_master_row url d ts], "NEW")
  | r :: rs =>
    if r.url = url then
      (update_master_row r d ts).map (fun rr => (rr :: rs, "UPDATED"))
    else
      (upsert_master rs url d ts).map (fun p => (r :: p.1, p.2))

/-- Row lookup by exact url match, as both upsert functions perform it. -/
def find_master (ws : List MasterRow) (url : String) : Option MasterRow :=
  ws.find? (fun r => r.url == url)

/-- When the current price and fee are both present, the update arithmetic
never hits the TypeError branch and the rolling cells come out as plain
min/max adoptions. -/
theorem update_master_row_present (r : MasterRow) (d : Metrics) (ts : String)
    (p e : Int) (hp : d.price_usd = some p) (he : d.expensas_ars = some e) :
    update_master_row r d ts =
      some { r with price_usd := some p, expensas_ars := some e,
                    last_seen := ts, status := "Activo",
                    price_min := some ((r.price_min.elim p (fun a => min a p))),
                    price_max := some ((r.price_max.elim p (fun a => max a p))),
                    exp_min := some ((r.exp_min.elim e (fun a => min a e))) } := by
  unfold update_master_row roll_min roll_max
  rw [hp, he]
  cases r.price_min <;> cases r.price_max <;> cases r.exp_min <;> rfl

/-- Existence form of update_master_row_present, exposing the properties of
the recomputed rolling cells. -/
theorem update_master_row_present_props (r : MasterRow) (d : Metrics) (ts : String)
    (p e : Int) (hp : d.price_usd = some p) (he : d.expensas_ars = some e) :
    ∃ r2, update_master_row r d ts = some r2 ∧ r2.url = r.url ∧
      r2.price_usd = some p ∧ r2.expensas_ars = some e ∧
      ∃ pm pM em, r2.price_min = some pm ∧ r2.price_max = some pM ∧
        r2.exp_min = some em ∧ pm ≤ p ∧ p ≤ pM ∧ em ≤ e := by
  refine ⟨_, update_master_row_present r d ts p e hp he, rfl, rfl, rfl,
    r.price_min.elim p (fun a => min a p), r.price_max.elim p (fun a => max a p),
    r.exp_min.elim e (fun a => min a e), rfl, rfl, rfl, ?_, ?_, ?_⟩
  · cases r.price_min <;> simp
  · cases r.price_max <;> simp
  · cases r.exp_min <;> simp

/-- C2: one upsert_master step with a present price p and fee e always
succeeds, and afterwards the row found under that url carries present
rolling cells with price_min ≤ p ≤ price_max and exp_min ≤ e, while the
current price and fee cells hold p and e.  The prior min/max cells of the
row are arbitrary (in particular absent or non-numeric, both none here), so
the statement covers creation and every later update of any sequence of
operations on the row. -/
theorem upsert_master_price_invariant (ws : List MasterRow) (url : String)
    (d : Metrics) (ts : String) (p e : Int)
    (hp : d.price_usd = some p) (he : d.expensas_ars = some e) :
    ∃ ws' res, upsert_master ws url d ts = some (ws', res) ∧
      ∃ r, find_master ws' url = some r ∧
        r.price_usd = some p ∧ r.expensas_ars = some e ∧
        ∃ pm pM em, r.price_min = some pm ∧ r.price_max = some pM ∧
          r.exp_min = some em ∧ pm ≤ p ∧ p ≤ pM ∧ em ≤ e := by
  induction ws with
  | nil =>
    refine ⟨[new_master_row url d ts], "NEW", rfl, new_master_row url d ts,
      ?_, ?_, ?_, p, p, e, ?_, ?_, ?_, le_refl p, le_refl p, le_refl e⟩
    · simp [find_master, List.find?, new_master_row]
    · simpa [new_master_row] using hp
    · simpa [new_master_row] using he
    · simpa [new_master_row] using hp
    · simpa [new_master_row] using hp
    · simpa [new_master_row] using he
  | cons r rs ih =>
    by_cases hu : r.url = url
    · obtain ⟨r2, hup2, hu2url, h2p, h2e, pm, pM, em, hpm, hpM, hem, h1, h2, h3⟩ :=
        update_master_row_present_props r d ts p e hp he
      refine ⟨r2 :: rs, "UPDATED", ?_, r2, ?_, h2p, h2e, pm, pM, em, hpm, hpM, hem, h1, h2, h3⟩
      · simp [upsert_master, hu, hup2]
      · simp [find_master, List.find?, hu2url, hu]
    · obtain ⟨ws', res, hws, rr, hfind, hrest⟩ := ih
      refine ⟨r :: ws', res, ?_, rr, ?_, hrest⟩
      · simp [upsert_master, hu, hws]
      · have hbe : (r.url == url) = false := by simp [hu]
        simpa [find_master, List.find?, hbe] using hfind

/-- Concrete instantiation of upsert_master_price_invariant on an empty
table. -/
theorem upsert_master_price_invariant_witness :
    ∃ ws' res,
      upsert_master [] "u" ⟨"t", some 3, some 5, some 4, "b", "Depto", "S"⟩ "d1" =
        some (ws', res) ∧
      ∃ r, find_master ws' "u" = some r ∧
        r.price_usd = some 5 ∧ r.expensas_ars = some 4 ∧
        ∃ pm pM em, r.price_min = some pm ∧ r.price_max = some pM ∧
          r.exp_min = some em ∧ pm ≤ 5 ∧ (5 : Int) ≤ pM ∧ em ≤ 4 :=
  upsert_master_price_invariant [] "u" ⟨"t", some 3, some 5, some 4, "b", "Depto", "S"⟩
    "d1" 5 4 rfl rfl

/-- C10: acceptance guarantees presence of price and fee, and under that
precondition upsert_master is total: the TypeError branch of the update
arithmetic (min or max against an absent value) is unreachable.  The
orchestrator (lines 427-430) calls upsert_master exactly when strict_ok
returned true, so every orchestrated call is covered. -/
theorem strict_ok_implies_upsert_total (cfg : Config) (d : Metrics)
    (hok : (strict_ok cfg d).1 = true) (ws : List MasterRow) (url ts : String) :
    (∃ p, d.price_usd = some p) ∧ (∃ e, d.expensas_ars = some e) ∧
      (upsert_master ws url d ts).isSome := by
  have hpe : (∃ p, d.price_usd = some p) ∧ ∃ e, d.expensas_ars = some e := by
    unfold strict_ok at hok
    rcases d with ⟨t, amb, pr, ex, b, tp, bp⟩
    by_cases hb : b = "" <;> simp [hb] at hok
    cases amb with
    | none => simp at hok
    | some a =>
      simp only at hok
      by_cases ha : a < cfg.MIN_AMB
      · simp [ha] at hok
      · simp only [if_neg ha] at hok
        cases pr with
        | none => simp at hok
        | some p =>
          simp only at hok
          by_cases hp : p > cfg.MAX_USD
          · simp [hp] at hok
          · simp only [if_neg hp] at hok
            cases ex with
            | none => simp at hok
            | some e => exact ⟨⟨p, rfl⟩, e, rfl⟩
  obtain ⟨⟨p, hp⟩, e, he⟩ := hpe
  refine ⟨⟨p, hp⟩, ⟨e, he⟩, ?_⟩
  induction ws with
  | nil => simp [upsert_master]
  | cons r rs ih =>
    by_cases hu : r.url = url
    · simp [upsert_master, hu, update_master_row_present r d ts p e hp he]
    · simpa [upsert_master, hu, Option.isSome_map] using ih

/-- Concrete instantiation of strict_ok_implies_upsert_total. -/
theorem strict_ok_implies_upsert_total_witness :
    (∃ p, (Metrics.mk "t" (some 3) (some 5) (some 4) "b" "Depto" "S").price_usd = some p) ∧
    (∃ e, (Metrics.mk "t" (some 3) (some 5) (some 4) "b" "Depto" "S").expensas_ars = some e) ∧
    (upsert_master [] "u" (Metrics.mk "t" (some 3) (some 5) (some 4) "b" "Depto" "S") "d1").isSome :=
  strict_ok_implies_upsert_total ⟨121000, 120000, 2, 120⟩
    (Metrics.mk "t" (some 3) (some 5) (some 4) "b" "Depto" "S") (by decide) [] "u" "d1"

/-- When no row matches the url, upsert_master appends the seeded row at the
end of the table (the except ValueError branch, lines 346-353). -/
theorem upsert_master_absent (ws : List MasterRow) (url : String) (d : Metrics)
    (ts : String) (habs : ∀ r ∈ ws, r.url ≠ url) :
    upsert_master ws url d ts = some (ws ++ [new_master_row url d ts], "NEW") := by
  induction ws with
  | nil => rfl
  | cons r rs ih =>
    have hne : r.url ≠ url := habs r (by simp)
    simp [upsert_master, hne, ih (fun rr hrr => habs rr (by simp [hrr]))]

/-- When the (unique) matching row sits at the end of the table, upsert_master
rewrites exactly that row in place. -/
theorem upsert_master_found (ws0 : List MasterRow) (r : MasterRow) (url : String)
    (d : Metrics) (ts : String)
    (habs : ∀ rr ∈ ws0, rr.url ≠ url) (hr : r.url = url) :
    upsert_master (ws0 ++ [r]) url d ts =
      (update_master_row r d ts).map (fun rr => (ws0 ++ [rr], "UPDATED")) := by
  induction ws0 with
  | nil => simp [upsert_master, hr]
  | cons a as ih =>
    have hne : a.url ≠ url := habs a (by simp)
    have ih2 := ih (fun rr hrr => habs rr (by simp [hrr]))
    cases h : update_master_row r d ts with
    | none => simp [upsert_master, hne, ih2, h]
    | some rr => simp [upsert_master, hne, ih2, h]

/-- Row lookup on a table whose only matching row is the last one. -/
theorem find_master_append (ws0 : List MasterRow) (r : MasterRow) (url : String)
    (habs : ∀ rr ∈ ws0, rr.url ≠ url) (hr : r.url = url) :
    find_master (ws0 ++ [r]) url = some r := by
  induction ws0 with
  | nil => simp [find_master, List.find?, hr]
  | cons a as ih =>
    have hbe : (a.url == url) = false := by simp [habs a (by simp)]
    simp only [find_master, List.cons_append, List.find?, hbe]
    exact ih (fun rr hrr => habs rr (by simp [hrr]))

/-- C4: upserting the same record twice, a creation at ts1 followed by one
update at ts2, with one identical present price p and fee e, leaves the row
with price_min = price_max = p and with the first_seen cell still holding
the creation timestamp ts1. -/
theorem upsert_master_idempotent (ws0 : List MasterRow) (url : String) (d : Metrics)
    (ts1 ts2 : String) (p e : Int)
    (hp : d.price_usd = some p) (he : d.expensas_ars = some e)
    (habs : ∀ r ∈ ws0, r.url ≠ url) :
    ∃ ws1 ws2, upsert_master ws0 url d ts1 = some (ws1, "NEW") ∧
      upsert_master ws1 url d ts2 = some (ws2, "UPDATED") ∧
      ∃ r, find_master ws2 url = some r ∧
        r.price_min = some p ∧ r.price_max = some p ∧ r.first_seen = ts1 := by
  have h1 := upsert_master_absent ws0 url d ts1 habs
  have hstep : ∃ r2, update_master_row (new_master_row url d ts1) d ts2 = some r2 ∧
      r2.url = url ∧ r2.price_min = some p ∧ r2.price_max = some p ∧
      r2.first_seen = ts1 := by
    refine ⟨_, update_master_row_present (new_master_row url d ts1) d ts2 p e hp he,
      rfl, ?_, ?_, rfl⟩
    · show some ((new_master_row url d ts1).price_min.elim p (fun a => min a p)) = some p
      simp [new_master_row, hp]
    · show some ((new_master_row url d ts1).price_max.elim p (fun a => max a p)) = some p
      simp [new_master_row, hp]
  obtain ⟨r2, hupd, hr2url, hr2min, hr2max, hr2fs⟩ := hstep
  have h2 := upsert_master_found ws0 (new_master_row url d ts1) url d ts2 habs rfl
  rw [hupd] at h2
  simp only [Option.map_some'] at h2
  exact ⟨ws0 ++ [new_master_row url d ts1], ws0 ++ [r2], h1, h2, r2,
    find_master_append ws0 r2 url habs hr2url, hr2min, hr2max, hr2fs⟩

/-- Concrete instantiation of upsert_master_idempotent on the empty table. -/
theorem upsert_master_idempotent_witness :
    ∃ ws1 ws2,
      upsert_master [] "u" ⟨"t", some 3, some 5, some 4, "b", "Depto", "S"⟩ "d1" =
        some (ws1, "NEW") ∧
      upsert_master ws1 "u" ⟨"t", some 3, some 5, some 4, "b", "Depto", "S"⟩ "d2" =
        some (ws2, "UPDATED") ∧
      ∃ r, find_master ws2 "u" = some r ∧
        r.price_min = some 5 ∧ r.price_max = some 5 ∧ r.first_seen = "d1" :=
  upsert_master_idempotent [] "u" ⟨"t", some 3, some 5, some 4, "b", "Depto", "S"⟩
    "d1" "d2" 5 4 rfl rfl (by simp)

/-- Folding upsert_master over a list of records for one url, stopping at the
first failure: the per-run effect of observing the same listing repeatedly. -/
def upsert_master_seq (ws : List MasterRow) (url : String) (ds : List Metrics)
    (ts : String) : Option (List MasterRow) :=
  match ds with
  | [] => some ws
  | d :: rest =>
    match upsert_master ws url d ts with
    | none => none
    | some pr => upsert_master_seq pr.1 url rest ts

/-- Folding left a commutative associative operation is invariant under
permutation of the list. -/
theorem foldl_comm_assoc_perm {f : Int → Int → Int}
    (hc : ∀ a b, f a b = f b a) (ha : ∀ a b c, f (f a b) c = f a (f b c))
    {l1 l2 : List Int} (hp : l1.Perm l2) : ∀ a, l1.foldl f a = l2.foldl f a := by
  induction hp with
  | nil => intro a; rfl
  | cons x _ ih => intro a; simpa using ih (f a x)
  | swap x y l =>
    intro a
    simp only [List.foldl_cons]
    have hxy : f (f a y) x = f (f a x) y := by rw [ha, ha, hc y x]
    rw [hxy]
  | trans _ _ ih1 ih2 => intro a; exact (ih1 a).trans (ih2 a)

/-- Running upsert_master over records with present prices and fees, starting
from a table whose unique matching row sits at the end, keeps the row at the
end and folds min/max over the observed prices into its rolling cells. -/
theorem upsert_master_seq_found (ws0 : List MasterRow) (url ts : String)
    (habs : ∀ rr ∈ ws0, rr.url ≠ url) :
    ∀ (ds : List Metrics) (ps : List Int) (r : MasterRow), r.url = url →
      ds.map Metrics.price_usd = ps.map some →
      (∀ d ∈ ds, ∃ e, d.expensas_ars = some e) →
      ∀ m M, r.price_min = some m → r.price_max = some M →
      ∃ r2, upsert_master_seq (ws0 ++ [r]) url ds ts = some (ws0 ++ [r2]) ∧
        r2.url = url ∧ r2.price_min = some (ps.foldl min m) ∧
        r2.price_max = some (ps.foldl max M) := by
  intro ds
  induction ds with
  | nil =>
    intro ps r hr hmap hfee m M hm hM
    cases ps with
    | nil => exact ⟨r, rfl, hr, by simpa using hm, by simpa using hM⟩
    | cons q qs => simp at hmap
  | cons d ds ih =>
    intro ps r hr hmap hfee m M hm hM
    cases ps with
    | nil => simp at hmap
    | cons q qs =>
      simp only [List.map_cons, List.cons.injEq] at hmap
      obtain ⟨hq, hrest⟩ := hmap
      obtain ⟨e, he⟩ := hfee d (by simp)
      have hrow : ∃ r1, update_master_row r d ts = some r1 ∧ r1.url = url ∧
          r1.price_min = some (min m q) ∧ r1.price_max = some (max M q) := by
        refine ⟨_, update_master_row_present r d ts q e hq he, hr, ?_, ?_⟩
        · show some (r.price_min.elim q (fun a => min a q)) = some (min m q)
          simp [hm]
        · show some (r.price_max.elim q (fun a => max a q)) = some (max M q)
          simp [hM]
      obtain ⟨r1, hupd, hr1url, hr1min, hr1max⟩ := hrow
      have hstep := upsert_master_found ws0 r url d ts habs hr
      rw [hupd] at hstep
      simp only [Option.map_some'] at hstep
      have hseq : upsert_master_seq (ws0 ++ [r]) url (d :: ds) ts =
          upsert_master_seq (ws0 ++ [r1]) url ds ts := by
        simp [upsert_master_seq, hstep]
      obtain ⟨r2, hs2, hu2, hmin2, hmax2⟩ :=
        ih qs r1 hr1url hrest (fun dd hdd => hfee dd (by simp [hdd]))
          (min m q) (max M q) hr1min hr1max
      exact ⟨r2, hseq.trans hs2, hu2, hmin2, hmax2⟩

/-- Creation with price q followed by updates with prices qs leaves the row
at the end with price_min/price_max the fold of min/max over q :: qs. -/
theorem upsert_master_seq_minmax (ws0 : List MasterRow) (url ts : String)
    (q : Int) (qs : List Int) (ds : List Metrics)
    (habs : ∀ r ∈ ws0, r.url ≠ url)
    (hmap : ds.map Metrics.price_usd = (q :: qs).map some)
    (hfee : ∀ d ∈ ds, ∃ e, d.expensas_ars = some e) :
    ∃ r2, upsert_master_seq ws0 url ds ts = some (ws0 ++ [r2]) ∧ r2.url = url ∧
      r2.price_min = some (qs.foldl min q) ∧ r2.price_max = some (qs.foldl max q) := by
  cases ds with
  | nil => simp at hmap
  | cons d ds =>
    simp only [List.map_cons, List.cons.injEq] at hmap
    obtain ⟨hq, hrest⟩ := hmap
    have h1 := upsert_master_absent ws0 url d ts habs
    have hn : (new_master_row url d ts).price_min = some q := by
      simpa [new_master_row] using hq
    have hN : (new_master_row url d ts).price_max = some q := by
      simpa [new_master_row] using hq
    have hseq : upsert_master_seq ws0 url (d :: ds) ts =
        upsert_master_seq (ws0 ++ [new_master_row url d ts]) url ds ts := by
      simp [upsert_master_seq, h1]
    obtain ⟨r2, hs2, hu2, hmin2, hmax2⟩ :=
      upsert_master_seq_found ws0 url ts habs ds qs (new_master_row url d ts) rfl
        hrest (fun dd hdd => hfee dd (by simp [hdd])) q q hn hN
    exact ⟨r2, hseq.trans hs2, hu2, hmin2, hmax2⟩

/-- C5: starting from a table without the url, a creation with price q
followed by updates with prices qs (all records carrying some present fee)
ends with price_min the minimum and price_max the maximum of all observed
prices, and any permutation of the update prices produces the same
price_min and price_max. -/
theorem upsert_master_minmax_perm (ws0 : List MasterRow) (url ts : String)
    (q : Int) (qs : List Int) (ds : List Metrics)
    (habs : ∀ r ∈ ws0, r.url ≠ url)
    (hmap : ds.map Metrics.price_usd = (q :: qs).map some)
    (hfee : ∀ d ∈ ds, ∃ e, d.expensas_ars = some e) :
    ∃ ws1 r, upsert_master_seq ws0 url ds ts = some ws1 ∧
      find_master ws1 url = some r ∧
      r.price_min = some (qs.foldl min q) ∧ r.price_max = some (qs.foldl max q) ∧
      ∀ ds2 qs2, ds2.map Metrics.price_usd = (q :: qs2).map some →
        (∀ d ∈ ds2, ∃ e, d.expensas_ars = some e) → qs.Perm qs2 →
        ∃ ws2 r2, upsert_master_seq ws0 url ds2 ts = some ws2 ∧
          find_master ws2 url = some r2 ∧
          r2.price_min = r.price_min ∧ r2.price_max = r.price_max := by
  obtain ⟨r, hs, hu, hmin, hmax⟩ :=
    upsert_master_seq_minmax ws0 url ts q qs ds habs hmap hfee
  refine ⟨ws0 ++ [r], r, hs, find_master_append ws0 r url habs hu, hmin, hmax, ?_⟩
  intro ds2 qs2 hmap2 hfee2 hperm
  obtain ⟨r2, hs2, hu2, hmin2, hmax2⟩ :=
    upsert_master_seq_minmax ws0 url ts q qs2 ds2 habs hmap2 hfee2
  refine ⟨ws0 ++ [r2], r2, hs2, find_master_append ws0 r2 url habs hu2, ?_, ?_⟩
  · rw [hmin2, hmin,
      foldl_comm_assoc_perm (fun a b => min_comm a b) (fun a b c => min_assoc a b c) hperm q]
  · rw [hmax2, hmax,
      foldl_comm_assoc_perm (fun a b => max_comm a b) (fun a b c => max_assoc a b c) hperm q]

/-- Concrete instantiation of upsert_master_minmax_perm: prices 90000 then
85000 give price_min 85000 and price_max 90000 (spec scenario 4). -/
theorem upsert_master_minmax_perm_witness :
    ∃ ws1 r,
      upsert_master_seq [] "u"
        [⟨"t", some 3, some 90000, some 4, "b", "Depto", "S"⟩,
         ⟨"t", some 3, some 85000, some 4, "b", "Depto", "S"⟩] "d1" = some ws1 ∧
      find_master ws1 "u" = some r ∧
      r.price_min = some (([85000] : List Int).foldl min 90000) ∧
      r.price_max = some (([85000] : List Int).foldl max 90000) ∧
      ∀ ds2 qs2, ds2.map Metrics.price_usd = ((90000 : Int) :: qs2).map some →
        (∀ d ∈ ds2, ∃ e, d.expensas_ars = some e) → ([85000] : List Int).Perm qs2 →
        ∃ ws2 r2, upsert_master_seq [] "u" ds2 "d1" = some ws2 ∧
          find_master ws2 "u" = some r2 ∧
          r2.price_min = r.price_min ∧ r2.price_max = r.price_max :=
  upsert_master_minmax_perm [] "u" "d1" 90000 [85000]
    [⟨"t", some 3, some 90000, some 4, "b", "Depto", "S"⟩,
     ⟨"t", some 3, some 85000, some 4, "b", "Depto", "S"⟩]
    (by simp) rfl
    (by intro d hd
        simp only [List.mem_cons, List.not_mem_nil, or_false] at hd
        rcases hd with rfl | rfl <;> exact ⟨4, rfl⟩)

/-- One row of the REVISAR (review) tab, columns in sheet order
(lines 304-306). -/
structure RevisarRow where
  url : String
  portal : String
  barrio_detectado : String
  tipo : String
  ambientes : Option Int
  price_usd : Option Int
  expensas_ars : Option Int
  balcon_patio : String
  title : String
  reason : String
  first_seen : String
  last_seen : String

/-- The append branch of upsert_revisar (lines 365-369). -/
def new_revisar_row (url : String) (d : Metrics) (ts reason : String) : RevisarRow :=
  { url := url, portal := "Zonaprop", barrio_detectado := d.barrio, tipo := d.tipo,
    ambientes := d.ambientes, price_usd := d.price_usd,
    expensas_ars := d.expensas_ars, balcon_patio := d.balcon_patio,
    title := d.title, reason := reason, first_seen := ts, last_seen := ts }

/-- Embedding of upsert_revisar (lines 356-369): when a row with the url is
found, only the last_seen cell (column L) and the reason cell (column J) are
written; otherwise a full new row is appended. -/
def upsert_revisar (ws : List RevisarRow) (url : String) (d : Metrics)
    (ts reason : String) : List RevisarRow × String :=
  match ws with
  | [] => ([new_revisar_row url d ts reason], "NEW")
  | r :: rs =>
    if r.url = url then
      ({ r with last_seen := ts, reason := reason } :: rs, "UPDATED")
    else
      let pr := upsert_revisar rs url d ts reason
      (r :: pr.1, pr.2)

/-- C6: when the url is already present in the review table, upsert_revisar
rewrites only the last_seen and reason cells of the first matching row; the
url, portal, neighborhood, type, rooms, price, fee, outdoor-space, title and
first_seen cells of that row keep their previous values whatever the newly
extracted record d contains, and every other row of the table is untouched. -/
theorem upsert_revisar_frame (pre post : List RevisarRow) (r : RevisarRow)
    (url : String) (d : Metrics) (ts reason : String)
    (hpre : ∀ s ∈ pre, s.url ≠ url) (hr : r.url = url) :
    ∃ r2, upsert_revisar (pre ++ r :: post) url d ts reason =
        (pre ++ r2 :: post, "UPDATED") ∧
      r2.url = r.url ∧ r2.portal = r.portal ∧
      r2.barrio_detectado = r.barrio_detectado ∧ r2.tipo = r.tipo ∧
      r2.ambientes = r.ambientes ∧ r2.price_usd = r.price_usd ∧
      r2.expensas_ars = r.expensas_ars ∧ r2.balcon_patio = r.balcon_patio ∧
      r2.title = r.title ∧ r2.first_seen = r.first_seen ∧
      r2.last_seen = ts ∧ r2.reason = reason := by
  refine ⟨{ r with last_seen := ts, reason := reason }, ?_,
    rfl, rfl, rfl, rfl, rfl, rfl, rfl, rfl, rfl, rfl, rfl, rfl⟩
  induction pre with
  | nil => simp [upsert_revisar, hr]
  | cons a as ih =>
    have hne : a.url ≠ url := hpre a (by simp)
    have ih2 := ih (fun s hs => hpre s (by simp [hs]))
    simp [upsert_revisar, hne, ih2]

/-- Concrete instantiation of upsert_revisar_frame on a one-row table. -/
theorem upsert_revisar_frame_witness :
    ∃ r2, upsert_revisar
        [RevisarRow.mk "u" "Zonaprop" "b" "Depto" (some 1) (some 2) (some 3) "N" "t" "old"
          "f1" "l1"] "u"
        ⟨"t2", some 9, some 8, some 7, "x", "PH", "S"⟩ "l2" "new" =
        ([r2], "UPDATED") ∧
      r2.url = "u" ∧ r2.portal = "Zonaprop" ∧ r2.barrio_detectado = "b" ∧
      r2.tipo = "Depto" ∧ r2.ambientes = some 1 ∧ r2.price_usd = some 2 ∧
      r2.expensas_ars = some 3 ∧ r2.balcon_patio = "N" ∧ r2.title = "t" ∧
      r2.first_seen = "f1" ∧ r2.last_seen = "l2" ∧ r2.reason = "new" :=
  upsert_revisar_frame [] []
    (RevisarRow.mk "u" "Zonaprop" "b" "Depto" (some 1) (some 2) (some 3) "N" "t" "old"
      "f1" "l1")
    "u" ⟨"t2", some 9, some 8, some 7, "x", "PH", "S"⟩ "l2" "new" (by simp) rfl

/-- Python str.strip on the character list: drop whitespace from both ends
(structural recursion, so concrete instances evaluate in the kernel). -/
def strip_chars (cs : List Char) : List Char :=
  ((cs.dropWhile Char.isWhitespace).reverse.dropWhile Char.isWhitespace).reverse

/-- Python str.strip. -/
def py_strip (s : String) : String :=
  String.mk (strip_chars s.data)

/-- Embedding of normalize_url (lines 187-189): url.split("?")[0].strip(),
that is the part before the first question mark, stripped of surrounding
whitespace. -/
def normalize_url (url : String) : String :=
  py_strip (String.mk (url.data.takeWhile (fun c => c ≠ '?')))

/-- Embedding of load_existing_urls (lines 315-317) applied to a url column:
strip each value and drop empties; only membership in the result matters, so
the Python set is kept as a list. -/
def load_existing_urls (col : List String) : List String :=
  (col.map py_strip).filter (fun v => v ≠ "")

/-- Worker for the candidate-selection loop of main (lines 408-414): append
the normalized url when it is in neither existing set, then break as soon as
the accumulated list has reached the per-run budget. -/
def select_go (budget : Nat) (em er : List String) :
    List String → List String → List String
  | [], acc => acc
  | u :: rest, acc =>
    let u0 := normalize_url u
    let acc2 := if u0 ∉ em ∧ u0 ∉ er then acc ++ [u0] else acc
    if budget ≤ acc2.length then acc2 else select_go budget em er rest acc2

/-- The new_urls list computed by main from the discovered candidates and the
two existing-url sets. -/
def select_new_urls (budget : Nat) (em er : List String)
    (all_urls : List String) : List String :=
  select_go budget em er all_urls []

/-- The url columns of the two tables. -/
def master_urls (ws : List MasterRow) : List String := ws.map MasterRow.url

/-- The url column of the review table. -/
def revisar_urls (ws : List RevisarRow) : List String := ws.map RevisarRow.url

/-- Mutable state of the per-URL loop of main (lines 418-445). -/
structure LoopState where
  master : List MasterRow
  revisar : List RevisarRow
  added_master : Nat
  added_revisar : Nat
  errors : Nat

/-- The classification outcome of one url: none when fetch raised after its
retries, otherwise the strict_ok verdict on the extracted record.  F is the
per-url fetch outcome and extract the text-to-record extraction, both fixed
for the duration of a run. -/
def classify (F : String → Option String) (extract : String → Metrics)
    (cfg : Config) (u : String) : Option Bool :=
  (F u).map (fun h => (strict_ok cfg (extract h)).1)

/-- One iteration of the per-URL loop of main (lines 423-445): fetch, extract,
classify, reconcile into the matching table; any exception (a failed fetch, or
the TypeError escaping upsert_master) is caught, counted and skipped. -/
def process_url (F : String → Option String) (extract : String → Metrics)
    (cfg : Config) (ts : String) (s : LoopState) (u : String) : LoopState :=
  match F u with
  | none => { s with errors := s.errors + 1 }
  | some html =>
    let d := extract html
    let ok := strict_ok cfg d
    if ok.1 then
      match upsert_master s.master u d ts with
      | none => { s with errors := s.errors + 1 }
      | some pr =>
        { s with master := pr.1,
                 added_master := if pr.2 = "NEW" then s.added_master + 1
                                 else s.added_master }
    else
      { s with revisar := (upsert_revisar s.revisar u d ts ok.2).1,
               added_revisar := s.added_revisar + 1 }

/-- The whole per-URL loop. -/
def run_loop (F : String → Option String) (extract : String → Metrics)
    (cfg : Config) (ts : String) (s : LoopState) (urls : List String) : LoopState :=
  urls.foldl (process_url F extract cfg ts) s

/-- The LOG audit row appended at line 447. -/
structure AuditRow where
  ts_utc : String
  new_urls_checked : Nat
  added_master : Nat
  added_revisar : Nat
  errors : Nat

/-- One invocation of main (lines 391-458) after discovery: load the existing
url sets, select candidates up to the budget, run the per-URL loop, and build
the audit row. -/
def run_once (F : String → Option String) (extract : String → Metrics)
    (cfg : Config) (ts : String) (master0 : List MasterRow)
    (revisar0 : List RevisarRow) (all_urls : List String) :
    LoopState × AuditRow :=
  let em := load_existing_urls (master_urls master0)
  let er := load_existing_urls (revisar_urls revisar0)
  let new_urls := select_new_urls cfg.MAX_NEW_URLS_PER_RUN em er all_urls
  let s := run_loop F extract cfg ts
    { master := master0, revisar := revisar0,
      added_master := 0, added_revisar := 0, errors := 0 } new_urls
  (s, { ts_utc := ts, new_urls_checked := new_urls.length,
        added_master := s.added_master, added_revisar := s.added_revisar,
        errors := s.errors })

/-- A successful row update never touches the url column. -/
theorem update_master_row_url (r : MasterRow) (d : Metrics) (ts : String)
    (rr : MasterRow) (h : update_master_row r d ts = some rr) : rr.url = r.url := by
  unfold update_master_row at h
  cases hp : roll_min r.price_min d.price_usd <;> rw [hp] at h
  · simp at h
  case some pm =>
    cases hq : roll_max r.price_max d.price_usd <;> rw [hq] at h
    · simp at h
    case some pM =>
      cases he : roll_min r.exp_min d.expensas_ars <;> rw [he] at h
      · simp at h
      case some em =>
        simp only [Bind.bind, Option.bind, Option.pure_def, Option.some.injEq] at h
        subst h
        rfl

/-- A successful upsert_master either rewrites a found row in place (url
column untouched) or appends exactly the new url at the end. -/
theorem upsert_master_urls (ws : List MasterRow) (url : String) (d : Metrics)
    (ts : String) (ws2 : List MasterRow) (res : String)
    (h : upsert_master ws url d ts = some (ws2, res)) :
    (master_urls ws2 = master_urls ws ∧ url ∈ master_urls ws) ∨
      (master_urls ws2 = master_urls ws ++ [url] ∧ url ∉ master_urls ws) := by
  induction ws generalizing ws2 res with
  | nil =>
    simp only [upsert_master, Option.some.injEq, Prod.mk.injEq] at h
    obtain ⟨h1, _⟩ := h
    right
    subst h1
    simp [master_urls, new_master_row]
  | cons r rs ih =>
    by_cases hu : r.url = url
    · simp only [upsert_master, if_pos hu] at h
      cases hu2 : update_master_row r d ts with
      | none => rw [hu2] at h; simp at h
      | some rr =>
        rw [hu2] at h
        simp only [Option.map_some', Option.some.injEq, Prod.mk.injEq] at h
        obtain ⟨h1, _⟩ := h
        left
        subst h1
        simp [master_urls, update_master_row_url r d ts rr hu2, hu]
    · simp only [upsert_master, if_neg hu] at h
      cases hrec : upsert_master rs url d ts with
      | none => rw [hrec] at h; simp at h
      | some pr =>
        rw [hrec] at h
        simp only [Option.map_some', Option.some.injEq, Prod.mk.injEq] at h
        obtain ⟨h1, _⟩ := h
        obtain hl | hr2 := ih pr.1 pr.2 (by rw [hrec])
        · left
          subst h1
          simp only [master_urls, List.map_cons] at hl ⊢
          exact ⟨by rw [hl.1], List.mem_cons_of_mem _ hl.2⟩
        · right
          subst h1
          simp only [master_urls, List.map_cons] at hr2 ⊢
          refine ⟨by rw [hr2.1]; simp, ?_⟩
          simp only [List.mem_cons, not_or]
          exact ⟨fun hh => hu hh.symm, hr2.2⟩

/-- upsert_revisar either rewrites a found row in place (url column
untouched) or appends exactly the new url at the end. -/
theorem upsert_revisar_urls (ws : List RevisarRow) (url : String) (d : Metrics)
    (ts reason : String) :
    (revisar_urls (upsert_revisar ws url d ts reason).1 = revisar_urls ws ∧
        url ∈ revisar_urls ws) ∨
      (revisar_urls (upsert_revisar ws url d ts reason).1 =
          revisar_urls ws ++ [url] ∧ url ∉ revisar_urls ws) := by
  induction ws with
  | nil => right; simp [upsert_revisar, revisar_urls, new_revisar_row]
  | cons r rs ih =>
    by_cases hu : r.url = url
    · left
      simp [upsert_revisar, hu, revisar_urls]
    · obtain hl | hr2 := ih
      · left
        simp only [upsert_revisar, if_neg hu, revisar_urls, List.map_cons] at hl ⊢
        exact ⟨by rw [hl.1], List.mem_cons_of_mem _ hl.2⟩
      · right
        simp only [upsert_revisar, if_neg hu, revisar_urls, List.map_cons] at hr2 ⊢
        refine ⟨by rw [hr2.1]; simp, ?_⟩
        simp only [List.mem_cons, not_or]
        exact ⟨fun hh => hu hh.symm, hr2.2⟩

/-- Case analysis of one loop iteration: either neither url column changes,
or the url is appended to exactly one of the two tables, consistently with
its classification. -/
theorem process_url_cases (F : String → Option String) (extract : String → Metrics)
    (cfg : Config) (ts : String) (s : LoopState) (u : String) :
    (master_urls (process_url F extract cfg ts s u).master = master_urls s.master ∧
       revisar_urls (process_url F extract cfg ts s u).revisar = revisar_urls s.revisar) ∨
    (classify F extract cfg u = some true ∧ u ∉ master_urls s.master ∧
       master_urls (process_url F extract cfg ts s u).master =
         master_urls s.master ++ [u] ∧
       revisar_urls (process_url F extract cfg ts s u).revisar =
         revisar_urls s.revisar) ∨
    (classify F extract cfg u = some false ∧ u ∉ revisar_urls s.revisar ∧
       revisar_urls (process_url F extract cfg ts s u).revisar =
         revisar_urls s.revisar ++ [u] ∧
       master_urls (process_url F extract cfg ts s u).master =
         master_urls s.master) := by
  cases hF : F u with
  | none => left; simp [process_url, hF]
  | some html =>
    by_cases hok : (strict_ok cfg (extract html)).1
    · cases hup : upsert_master s.master u (extract html) ts with
      | none => left; simp [process_url, hF, hok, hup]
      | some pr =>
        have hmu := upsert_master_urls s.master u (extract html) ts pr.1 pr.2
          (by rw [hup])
        obtain hl | hr2 := hmu
        · left
          constructor
          · simpa [process_url, hF, hok, hup] using hl.1
          · simp [process_url, hF, hok, hup]
        · right; left
          refine ⟨by simp [classify, hF, hok], hr2.2, ?_, ?_⟩
          · simpa [process_url, hF, hok, hup] using hr2.1
          · simp [process_url, hF, hok, hup]
    · have hok2 : (strict_ok cfg (extract html)).1 = false := by
        simpa using hok
      have hru := upsert_revisar_urls s.revisar u (extract html) ts
        (strict_ok cfg (extract html)).2
      obtain hl | hr2 := hru
      · left
        constructor
        · simp [process_url, hF, hok2]
        · simpa [process_url, hF, hok2] using hl.1
      · right; right
        refine ⟨by simp [classify, hF, hok2], hr2.2, ?_, ?_⟩
        · simpa [process_url, hF, hok2] using hr2.1
        · simp [process_url, hF, hok2]

/-- Every url selected by main is absent from both existing-url sets. -/
theorem select_go_mem (budget : Nat) (em er : List String) :
    ∀ (rest acc : List String), (∀ u ∈ acc, u ∉ em ∧ u ∉ er) →
      ∀ u ∈ select_go budget em er rest acc, u ∉ em ∧ u ∉ er := by
  intro rest
  induction rest with
  | nil => intro acc hacc u hu; exact hacc u hu
  | cons v rest ih =>
    intro acc hacc u hu
    simp only [select_go] at hu
    by_cases hin : normalize_url v ∉ em ∧ normalize_url v ∉ er
    · rw [if_pos hin] at hu
      have hacc2 : ∀ w ∈ acc ++ [normalize_url v], w ∉ em ∧ w ∉ er := by
        intro w hw
        rcases List.mem_append.mp hw with h1 | h2
        · exact hacc w h1
        · rw [List.mem_singleton] at h2; subst h2; exact hin
      by_cases hb : budget ≤ (acc ++ [normalize_url v]).length
      · rw [if_pos hb] at hu
        exact hacc2 u hu
      · rw [if_neg hb] at hu
        exact ih (acc ++ [normalize_url v]) hacc2 u hu
    · rw [if_neg hin] at hu
      by_cases hb : budget ≤ acc.length
      · rw [if_pos hb] at hu; exact hacc u hu
      · rw [if_neg hb] at hu; exact ih acc hacc u hu

/-- A stripped non-empty member of a url column is detected by
load_existing_urls. -/
theorem mem_load_existing (col : List String) (u : String)
    (hu : u ∈ col) (ht : py_strip u = u) (hne : u ≠ "") :
    u ∈ load_existing_urls col := by
  unfold load_existing_urls
  rw [List.mem_filter]
  refine ⟨?_, by simpa using hne⟩
  rw [List.mem_map]
  exact ⟨u, hu, ht⟩

/-- Inductive invariant of the per-URL loop: if the two url columns are
disjoint and each column is covered by its initial content plus
consistently-classified urls, and no processed url is detected in either
initial table, then the columns stay disjoint through the whole loop. -/
theorem run_loop_inv (F : String → Option String) (extract : String → Metrics)
    (cfg : Config) (ts : String) (m0 : List MasterRow) (r0 : List RevisarRow)
    (hm2 : ∀ u, u ∈ master_urls m0 → u ∈ load_existing_urls (master_urls m0))
    (hr2 : ∀ u, u ∈ revisar_urls r0 → u ∈ load_existing_urls (revisar_urls r0)) :
    ∀ (urls : List String) (s : LoopState),
      (∀ u ∈ urls, u ∉ load_existing_urls (master_urls m0) ∧
                   u ∉ load_existing_urls (revisar_urls r0)) →
      (∀ u, u ∈ master_urls s.master → u ∉ revisar_urls s.revisar) →
      (∀ u, u ∈ master_urls s.master → u ∈ master_urls m0 ∨
          classify F extract cfg u = some true) →
      (∀ u, u ∈ revisar_urls s.revisar → u ∈ revisar_urls r0 ∨
          classify F extract cfg u = some false) →
      (∀ u, u ∈ master_urls (run_loop F extract cfg ts s urls).master →
          u ∉ revisar_urls (run_loop F extract cfg ts s urls).revisar) ∧
      (∀ u, u ∈ master_urls (run_loop F extract cfg ts s urls).master →
          u ∈ master_urls m0 ∨ classify F extract cfg u = some true) ∧
      (∀ u, u ∈ revisar_urls (run_loop F extract cfg ts s urls).revisar →
          u ∈ revisar_urls r0 ∨ classify F extract cfg u = some false) := by
  intro urls
  induction urls with
  | nil => intro s _ hD hM hR; exact ⟨hD, hM, hR⟩
  | cons u rest ih =>
    intro s hsel hD hM hR
    have hrl : run_loop F extract cfg ts s (u :: rest) =
        run_loop F extract cfg ts (process_url F extract cfg ts s u) rest := rfl
    rw [hrl]
    have hselrest : ∀ w ∈ rest, w ∉ load_existing_urls (master_urls m0) ∧
        w ∉ load_existing_urls (revisar_urls r0) :=
      fun w hw => hsel w (by simp [hw])
    have hselu := hsel u (by simp)
    obtain hc1 | hc2 | hc3 := process_url_cases F extract cfg ts s u
    · refine ih (process_url F extract cfg ts s u) hselrest ?_ ?_ ?_
      · intro w hw
        rw [hc1.1] at hw
        rw [hc1.2]
        exact hD w hw
      · intro w hw; rw [hc1.1] at hw; exact hM w hw
      · intro w hw; rw [hc1.2] at hw; exact hR w hw
    · obtain ⟨hcl, hnm, hmeq, hreq⟩ := hc2
      refine ih (process_url F extract cfg ts s u) hselrest ?_ ?_ ?_
      · intro w hw
        rw [hmeq] at hw
        rw [hreq]
        rcases List.mem_append.mp hw with h1 | h2
        · exact hD w h1
        · rw [List.mem_singleton] at h2
          subst h2
          intro hwr
          obtain hold | hcls := hR w hwr
          · exact hselu.2 (hr2 w hold)
          · rw [hcl] at hcls
            simp at hcls
      · intro w hw
        rw [hmeq] at hw
        rcases List.mem_append.mp hw with h1 | h2
        · exact hM w h1
        · rw [List.mem_singleton] at h2
          subst h2
          exact Or.inr hcl
      · intro w hw; rw [hreq] at hw; exact hR w hw
    · obtain ⟨hcl, hnr, hreq, hmeq⟩ := hc3
      refine ih (process_url F extract cfg ts s u) hselrest ?_ ?_ ?_
      · intro w hw
        rw [hmeq] at hw
        rw [hreq]
        intro hwr
        rcases List.mem_append.mp hwr with h1 | h2
        · exact hD w hw h1
        · rw [List.mem_singleton] at h2
          subst h2
          obtain hold | hcls := hM w hw
          · exact hselu.1 (hm2 w hold)
          · rw [hcl] at hcls
            simp at hcls
      · intro w hw; rw [hmeq] at hw; exact hM w hw
      · intro w hw
        rw [hreq] at hw
        rcases List.mem_append.mp hw with h1 | h2
        · exact hR w h1
        · rw [List.mem_singleton] at h2
          subst h2
          exact Or.inr hcl

/-- C3: one run of the orchestrator preserves mutual exclusion of the two
tables.  The hypotheses say that the initial tables store stripped non-empty
urls (true of every row the script itself writes, because a fetch of an
empty url always raises) and are disjoint; after the per-URL loop, no url is
present in both the accepted and the review table: each new url was written
by its first classification to exactly one table, and urls already present
in either table were filtered out of the candidate list. -/
theorem run_accepted_review_disjoint (F : String → Option String)
    (extract : String → Metrics) (cfg : Config) (ts : String)
    (master0 : List MasterRow) (revisar0 : List RevisarRow) (all_urls : List String)
    (hdisj : ∀ u, u ∈ master_urls master0 → u ∉ revisar_urls revisar0)
    (hm : ∀ r ∈ master0, py_strip r.url = r.url ∧ r.url ≠ "")
    (hr : ∀ r ∈ revisar0, py_strip r.url = r.url ∧ r.url ≠ "") :
    ∀ u, u ∈ master_urls (run_once F extract cfg ts master0 revisar0 all_urls).1.master →
      u ∉ revisar_urls (run_once F extract cfg ts master0 revisar0 all_urls).1.revisar := by
  have hm2 : ∀ u, u ∈ master_urls master0 →
      u ∈ load_existing_urls (master_urls master0) := by
    intro u hu
    obtain ⟨r, hrm, hru⟩ := List.mem_map.mp hu
    obtain ⟨ht, hne⟩ := hm r hrm
    subst hru
    exact mem_load_existing _ _ hu ht hne
  have hr2 : ∀ u, u ∈ revisar_urls revisar0 →
      u ∈ load_existing_urls (revisar_urls revisar0) := by
    intro u hu
    obtain ⟨r, hrm, hru⟩ := List.mem_map.mp hu
    obtain ⟨ht, hne⟩ := hr r hrm
    subst hru
    exact mem_load_existing _ _ hu ht hne
  have hsel : ∀ u ∈ select_new_urls cfg.MAX_NEW_URLS_PER_RUN
      (load_existing_urls (master_urls master0))
      (load_existing_urls (revisar_urls revisar0)) all_urls,
      u ∉ load_existing_urls (master_urls master0) ∧
      u ∉ load_existing_urls (revisar_urls revisar0) :=
    select_go_mem cfg.MAX_NEW_URLS_PER_RUN _ _ all_urls [] (by simp)
  have hinv := run_loop_inv F extract cfg ts master0 revisar0 hm2 hr2
    (select_new_urls cfg.MAX_NEW_URLS_PER_RUN
      (load_existing_urls (master_urls master0))
      (load_existing_urls (revisar_urls revisar0)) all_urls)
    { master := master0, revisar := revisar0,
      added_master := 0, added_revisar := 0, errors := 0 }
    hsel hdisj (fun u hu => Or.inl hu) (fun u hu => Or.inl hu)
  exact hinv.1

/-- Concrete instantiation of run_accepted_review_disjoint on empty tables
with one candidate url: the accepted url is absent from the review table. -/
theorem run_accepted_review_disjoint_witness :
    "https://x/a" ∉ revisar_urls (run_once (fun _ => some "page")
        (fun _ => ⟨"t", some 3, some 5, some 4, "b", "Depto", "S"⟩)
        ⟨121000, 120000, 2, 120⟩ "d1" [] [] ["https://x/a"]).1.revisar :=
  run_accepted_review_disjoint (fun _ => some "page")
    (fun _ => ⟨"t", some 3, some 5, some 4, "b", "Depto", "S"⟩)
    ⟨121000, 120000, 2, 120⟩ "d1" [] [] ["https://x/a"]
    (by simp [master_urls]) (by simp) (by simp)
    "https://x/a" (by decide)

/-- The candidate predicate of main: the normalized url is in neither
existing-url set. -/
def unseenB (em er : List String) (u : String) : Bool :=
  decide (normalize_url u ∉ em ∧ normalize_url u ∉ er)

/-- With a positive budget still out of reach and enough unseen candidates
left, the selection loop stops exactly at the budget. -/
theorem select_go_length (budget : Nat) (em er : List String) :
    ∀ (rest acc : List String), acc.length < budget →
      budget ≤ acc.length + rest.countP (unseenB em er) →
      (select_go budget em er rest acc).length = budget := by
  intro rest
  induction rest with
  | nil =>
    intro acc hlt hle
    simp only [List.countP_nil, Nat.add_zero] at hle
    omega
  | cons v rest ih =>
    intro acc hlt hle
    simp only [select_go]
    by_cases hin : normalize_url v ∉ em ∧ normalize_url v ∉ er
    · rw [if_pos hin]
      have hcnt : (v :: rest).countP (unseenB em er) =
          rest.countP (unseenB em er) + 1 :=
        List.countP_cons_of_pos _ _ (by simpa [unseenB] using hin)
      by_cases hb : budget ≤ (acc ++ [normalize_url v]).length
      · rw [if_pos hb]
        simp only [List.length_append, List.length_singleton] at hb ⊢
        omega
      · rw [if_neg hb]
        refine ih (acc ++ [normalize_url v]) ?_ ?_
        · simp only [List.length_append, List.length_singleton] at hb ⊢
          omega
        · rw [hcnt] at hle
          simp only [List.length_append, List.length_singleton]
          omega
    · rw [if_neg hin]
      have hcnt : (v :: rest).countP (unseenB em er) =
          rest.countP (unseenB em er) :=
        List.countP_cons_of_neg _ _ (by simpa [unseenB] using hin)
      rw [if_neg (by omega : ¬ budget ≤ acc.length)]
      refine ih acc hlt ?_
      rw [hcnt] at hle
      exact hle

/-- The per-URL loop only ever adds urls from the processed list to either
url column. -/
theorem run_loop_urls_subset (F : String → Option String)
    (extract : String → Metrics) (cfg : Config) (ts : String) :
    ∀ (urls : List String) (s : LoopState),
      (∀ u, u ∈ master_urls (run_loop F extract cfg ts s urls).master →
         u ∈ master_urls s.master ∨ u ∈ urls) ∧
      (∀ u, u ∈ revisar_urls (run_loop F extract cfg ts s urls).revisar →
         u ∈ revisar_urls s.revisar ∨ u ∈ urls) := by
  intro urls
  induction urls with
  | nil => intro s; exact ⟨fun u hu => Or.inl hu, fun u hu => Or.inl hu⟩
  | cons v rest ih =>
    intro s
    have hrl : run_loop F extract cfg ts s (v :: rest) =
        run_loop F extract cfg ts (process_url F extract cfg ts s v) rest := rfl
    rw [hrl]
    have hstep : (∀ u, u ∈ master_urls (process_url F extract cfg ts s v).master →
        u ∈ master_urls s.master ∨ u = v) ∧
        (∀ u, u ∈ revisar_urls (process_url F extract cfg ts s v).revisar →
          u ∈ revisar_urls s.revisar ∨ u = v) := by
      obtain hc1 | hc2 | hc3 := process_url_cases F extract cfg ts s v
      · exact ⟨fun u hu => Or.inl (hc1.1 ▸ hu), fun u hu => Or.inl (hc1.2 ▸ hu)⟩
      · refine ⟨fun u hu => ?_, fun u hu => Or.inl (hc2.2.2.2 ▸ hu)⟩
        rw [hc2.2.2.1] at hu
        rcases List.mem_append.mp hu with h1 | h2
        · exact Or.inl h1
        · exact Or.inr (List.mem_singleton.mp h2)
      · refine ⟨fun u hu => Or.inl (hc3.2.2.2 ▸ hu), fun u hu => ?_⟩
        rw [hc3.2.2.1] at hu
        rcases List.mem_append.mp hu with h1 | h2
        · exact Or.inl h1
        · exact Or.inr (List.mem_singleton.mp h2)
    constructor
    · intro u hu
      rcases (ih (process_url F extract cfg ts s v)).1 u hu with h1 | h2
      · rcases hstep.1 u h1 with h3 | h4
        · exact Or.inl h3
        · exact Or.inr (by simp [h4])
      · exact Or.inr (by simp [h2])
    · intro u hu
      rcases (ih (process_url F extract cfg ts s v)).2 u hu with h1 | h2
      · rcases hstep.2 u h1 with h3 | h4
        · exact Or.inl h3
        · exact Or.inr (by simp [h4])
      · exact Or.inr (by simp [h2])

/-- C9 counterexample: with the per-run budget configured to 0 and one unseen
candidate (so the number of unseen candidates exceeds the budget), the
selection loop of main appends the candidate before testing the budget and
therefore selects 1 url, not 0: the claim that exactly B urls are selected
fails for B = 0. -/
theorem select_budget_zero_cex :
    (["a"] : List String).countP (unseenB [] []) = 1 ∧ 0 < 1 ∧
    select_new_urls 0 [] [] ["a"] = ["a"] ∧
    (select_new_urls 0 [] [] ["a"]).length ≠ 0 := by
  refine ⟨rfl, Nat.zero_lt_one, by decide, by decide⟩

/-- C9 amended (budget at least 1): when the number of discovered candidates
unseen in both tables exceeds a positive per-run budget B, the run selects
exactly B of them, the audit row reports B urls checked, and every candidate
left unselected stays untouched: it appears in a final table only if it was
already there before the run. -/
theorem select_new_urls_budget_spec (F : String → Option String)
    (extract : String → Metrics) (cfg : Config) (ts : String)
    (master0 : List MasterRow) (revisar0 : List RevisarRow) (all_urls : List String)
    (hb : 1 ≤ cfg.MAX_NEW_URLS_PER_RUN)
    (hcount : cfg.MAX_NEW_URLS_PER_RUN < all_urls.countP
      (unseenB (load_existing_urls (master_urls master0))
               (load_existing_urls (revisar_urls revisar0)))) :
    (run_once F extract cfg ts master0 revisar0 all_urls).2.new_urls_checked =
      cfg.MAX_NEW_URLS_PER_RUN ∧
    ∀ u0, u0 ∉ select_new_urls cfg.MAX_NEW_URLS_PER_RUN
        (load_existing_urls (master_urls master0))
        (load_existing_urls (revisar_urls revisar0)) all_urls →
      (u0 ∈ master_urls (run_once F extract cfg ts master0 revisar0 all_urls).1.master →
        u0 ∈ master_urls master0) ∧
      (u0 ∈ revisar_urls (run_once F extract cfg ts master0 revisar0 all_urls).1.revisar →
        u0 ∈ revisar_urls revisar0) := by
  have hlen : (select_new_urls cfg.MAX_NEW_URLS_PER_RUN
      (load_existing_urls (master_urls master0))
      (load_existing_urls (revisar_urls revisar0)) all_urls).length =
      cfg.MAX_NEW_URLS_PER_RUN :=
    select_go_length cfg.MAX_NEW_URLS_PER_RUN _ _ all_urls [] (by simpa using hb)
      (by simpa using le_of_lt hcount)
  constructor
  · exact hlen
  · intro u0 hnot
    have hsub := run_loop_urls_subset F extract cfg ts
      (select_new_urls cfg.MAX_NEW_URLS_PER_RUN
        (load_existing_urls (master_urls master0))
        (load_existing_urls (revisar_urls revisar0)) all_urls)
      { master := master0, revisar := revisar0,
        added_master := 0, added_revisar := 0, errors := 0 }
    constructor
    · intro hu
      rcases hsub.1 u0 hu with h1 | h2
      · exact h1
      · exact absurd h2 hnot
    · intro hu
      rcases hsub.2 u0 hu with h1 | h2
      · exact h1
      · exact absurd h2 hnot

/-- Concrete instantiation of select_new_urls_budget_spec: budget 1 with two
unseen candidates. -/
theorem select_new_urls_budget_spec_witness :
    (run_once (fun _ => none)
        (fun _ => ⟨"t", none, none, none, "", "Depto", "N"⟩)
        ⟨121000, 120000, 2, 1⟩ "d1" [] [] ["a", "b"]).2.new_urls_checked = 1 ∧
    ∀ u0, u0 ∉ select_new_urls 1 (load_existing_urls (master_urls []))
        (load_existing_urls (revisar_urls [])) ["a", "b"] →
      (u0 ∈ master_urls (run_once (fun _ => none)
          (fun _ => ⟨"t", none, none, none, "", "Depto", "N"⟩)
          ⟨121000, 120000, 2, 1⟩ "d1" [] [] ["a", "b"]).1.master →
        u0 ∈ master_urls []) ∧
      (u0 ∈ revisar_urls (run_once (fun _ => none)
          (fun _ => ⟨"t", none, none, none, "", "Depto", "N"⟩)
          ⟨121000, 120000, 2, 1⟩ "d1" [] [] ["a", "b"]).1.revisar →
        u0 ∈ revisar_urls []) :=
  select_new_urls_budget_spec (fun _ => none)
    (fun _ => ⟨"t", none, none, none, "", "Depto", "N"⟩)
    ⟨121000, 120000, 2, 1⟩ "d1" [] [] ["a", "b"] (le_refl 1) (by decide)

/-- Outcome of one HTTP GET attempt inside fetch: either the session raised
(network error, carrying the repr of the exception) or a response with a
status code and body arrived.  The oracle o gives the outcome of the k-th
attempt. -/
inductive AttemptOutcome where
  | netErr (msg : String)
  | resp (status : Nat) (text : String)

/-- The failure message recorded in `last` by a failing attempt (lines 86 and
92): "HTTP {status}" for a 403/429 blocking response, the exception repr for
a raised exception; the HTTPError raised by raise_for_status on a 4xx/5xx
response is abstracted as the tag "HTTPError {status}". -/
def failMsgOf : AttemptOutcome → String
  | AttemptOutcome.netErr m => m
  | AttemptOutcome.resp st _ =>
    if st = 403 ∨ st = 429 then "HTTP " ++ toString st
    else "HTTPError " ++ toString st

/-- An attempt outcome that does not return from fetch: an exception, a
blocking 403/429 status, or a status raise_for_status raises on (4xx/5xx). -/
def failingB : AttemptOutcome → Bool
  | AttemptOutcome.netErr _ => true
  | AttemptOutcome.resp st _ =>
    decide (st = 403 ∨ st = 429) || decide (400 ≤ st ∧ st < 600)

/-- The formatted value of `last` in the terminal RuntimeError message
(line 95): Python prints None when no attempt ran, else the stored string. -/
def lastStr : Option String → String
  | none => "None"
  | some s => s

/-- The retry loop of fetch (lines 75-95): rem attempts remain, used attempts
were consumed, last holds the most recent failure reason.  Returns the body
text of the first response that survives raise_for_status, or the terminal
error after the attempt budget is exhausted, together with the number of
attempts made. -/
def fetchAux (o : Nat → AttemptOutcome) (url : String) :
    Nat → Nat → Option String → Except String String × Nat
  | 0, used, last =>
    (Except.error ("Fetch failed for " ++ url ++ ". Last=" ++ lastStr last), used)
  | rem + 1, used, _last =>
    match o (used + 1) with
    | AttemptOutcome.netErr m => fetchAux o url rem (used + 1) (some m)
    | AttemptOutcome.resp st t =>
      if st = 403 ∨ st = 429 then
        fetchAux o url rem (used + 1) (some ("HTTP " ++ toString st))
      else if 400 ≤ st ∧ st < 600 then
        fetchAux o url rem (used + 1) (some ("HTTPError " ++ toString st))
      else (Except.ok t, used + 1)

/-- Embedding of fetch (lines 68-95): six attempts, for attempt in
range(1, 7). -/
def fetch (o : Nat → AttemptOutcome) (url : String) : Except String String × Nat :=
  fetchAux o url 6 0 none

/-- A failing attempt consumes one unit of budget and records its reason. -/
theorem fetchAux_step (o : Nat → AttemptOutcome) (url : String) (rem used : Nat)
    (last : Option String) (hfail : failingB (o (used + 1)) = true) :
    fetchAux o url (rem + 1) used last =
      fetchAux o url rem (used + 1) (some (failMsgOf (o (used + 1)))) := by
  have hL : fetchAux o url (rem + 1) used last =
      match o (used + 1) with
      | AttemptOutcome.netErr m => fetchAux o url rem (used + 1) (some m)
      | AttemptOutcome.resp st t =>
        if st = 403 ∨ st = 429 then
          fetchAux o url rem (used + 1) (some ("HTTP " ++ toString st))
        else if 400 ≤ st ∧ st < 600 then
          fetchAux o url rem (used + 1) (some ("HTTPError " ++ toString st))
        else (Except.ok t, used + 1) := rfl
  rw [hL]
  cases ho : o (used + 1) with
  | netErr m => simp [failMsgOf]
  | resp st t =>
    rw [ho] at hfail
    simp only [failingB, Bool.or_eq_true, decide_eq_true_eq] at hfail
    by_cases h1 : st = 403 ∨ st = 429
    · simp [h1, failMsgOf]
    · have h2 : 400 ≤ st ∧ st < 600 := hfail.resolve_left h1
      simp [h1, h2, failMsgOf]

/-- If every attempt up to the successful one fails and attempt k delivers a
2xx response, the loop returns that body at attempt k. -/
theorem fetchAux_succeeds (o : Nat → AttemptOutcome) (url : String) :
    ∀ (rem used : Nat) (last : Option String) (k st : Nat) (t : String),
      used < k → k ≤ used + rem →
      (∀ j, used < j → j < k → failingB (o j) = true) →
      o k = AttemptOutcome.resp st t → 200 ≤ st → st < 300 →
      fetchAux o url rem used last = (Except.ok t, k) := by
  intro rem
  induction rem with
  | zero => intro used last k st t hlt hle _ _ _ _; omega
  | succ rem ih =>
    intro used last k st t hlt hle hfail hk h2a h2b
    by_cases huk : used + 1 = k
    · subst huk
      unfold fetchAux
      rw [hk]
      have h1 : ¬ (st = 403 ∨ st = 429) := by omega
      have h2 : ¬ (400 ≤ st ∧ st < 600) := by omega
      simp [h1, h2]
    · have hlt2 : used + 1 < k := by omega
      rw [fetchAux_step o url rem used last (hfail (used + 1) (by omega) hlt2)]
      exact ih (used + 1) (some (failMsgOf (o (used + 1)))) k st t hlt2 (by omega)
        (fun j hj1 hj2 => hfail j (by omega) hj2) hk h2a h2b

/-- C8: with the attempt outcomes given by the oracle o, (1) if every one of
the six attempts fails (blocking 403/429 status, 4xx/5xx status, or raised
exception), fetch returns the terminal error after exactly 6 attempts, never
more, and the error message carries the failure reason of the last attempt;
(2) if the first attempts fail and attempt k (k at most 6) delivers a 2xx
response with body t, fetch returns t after exactly k attempts. -/
theorem fetch_retry_spec (o : Nat → AttemptOutcome) (url : String) :
    ((∀ k, 1 ≤ k → k ≤ 6 → failingB (o k) = true) →
      fetch o url =
        (Except.error ("Fetch failed for " ++ url ++ ". Last=" ++ failMsgOf (o 6)), 6)) ∧
    (∀ k st t, 1 ≤ k → k ≤ 6 →
      (∀ j, 1 ≤ j → j < k → failingB (o j) = true) →
      o k = AttemptOutcome.resp st t → 200 ≤ st → st < 300 →
      fetch o url = (Except.ok t, k)) := by
  constructor
  · intro hall
    show fetchAux o url 6 0 none = _
    rw [fetchAux_step o url 5 0 none (hall 1 (by omega) (by omega)),
        fetchAux_step o url 4 1 _ (hall 2 (by omega) (by omega)),
        fetchAux_step o url 3 2 _ (hall 3 (by omega) (by omega)),
        fetchAux_step o url 2 3 _ (hall 4 (by omega) (by omega)),
        fetchAux_step o url 1 4 _ (hall 5 (by omega) (by omega)),
        fetchAux_step o url 0 5 _ (hall 6 (by omega) (by omega))]
    rfl
  · intro k st t hk1 hk6 hfail hk h2a h2b
    exact fetchAux_succeeds o url 6 0 none k st t (by omega) (by omega)
      (fun j hj1 hj2 => hfail j (by omega) hj2) hk h2a h2b

/-- Concrete instantiation of fetch_retry_spec: an oracle that always raises
exhausts the six attempts and reports the last reason. -/
theorem fetch_retry_spec_witness :
    fetch (fun _ => AttemptOutcome.netErr "boom") "u" =
      (Except.error "Fetch failed for u. Last=boom", 6) := by
  have h := (fetch_retry_spec (fun _ => AttemptOutcome.netErr "boom") "u").1
    (fun k _ _ => rfl)
  rw [h]
  rfl

/-- Outcome of a whole fetch call as seen by the discovery code: the page
text, or the message of the exception fetch raised after its retries. -/
inductive FetchRes where
  | ok (text : String)
  | err (msg : String)
deriving DecidableEq

/-- Outcome of parse_sitemap (lines 118-136) on a document, abstracting the
external XML library: an index document with its child locations, a urlset
document with its page urls, or any other root tag.  The oracle returns none
when ET.fromstring raises on malformed input. -/
inductive SitemapParse where
  | index (locs : List String)
  | urlset (locs : List String)
  | unknown
deriving DecidableEq

/-- The primary sitemap index address (line 22). -/
def SITEMAP_INDEX : String := "https://www.zonaprop.com.ar/sitemaps_https.xml"

/-- The robots.txt address (line 23). -/
def ROBOTS_URL : String := "https://www.zonaprop.com.ar/robots.txt"

/-- ASCII lower-casing of one character, enough for the case-insensitive
prefix tests the source performs on "sitemap". -/
def lower_char (c : Char) : Char :=
  if 'A' ≤ c ∧ c ≤ 'Z' then Char.ofNat (c.toNat + 32) else c

/-- Prefix test on character lists. -/
def starts_with_chars : List Char → List Char → Bool
  | [], _ => true
  | _ :: _, [] => false
  | p :: ps, c :: cs => p == c && starts_with_chars ps cs

/-- Substring test on character lists (Python `pat in s`). -/
def contains_chars (pat : List Char) : List Char → Bool
  | [] => starts_with_chars pat []
  | c :: cs => starts_with_chars pat (c :: cs) || contains_chars pat cs

/-- Splitting a character list at a separator (Python splitlines for the
newline-separated robots.txt). -/
def split_char (sep : Char) : List Char → List (List Char)
  | [] => [[]]
  | c :: cs =>
    let r := split_char sep cs
    if c = sep then [] :: r
    else (c :: r.headD []) :: r.tail

/-- Embedding of sitemaps_from_robots (lines 139-145): collect, from every
line whose lower-casing starts with "sitemap:", the stripped remainder after
the first colon.  Because the lowered line starts with the 8-character prefix
"sitemap:", line.split(":", 1)[1] is exactly the characters from index 8 on. -/
def sitemaps_from_robots (robots_text : String) : List String :=
  (split_char '\n' robots_text.data).foldl (fun sm line =>
    if starts_with_chars "sitemap:".data (line.map lower_char) then
      sm ++ [String.mk (strip_chars (line.drop 8))]
    else sm) []

/-- Python sorted(set(...)) on strings: deduplicate, then sort. -/
def pySortedSet (l : List String) : List String :=
  List.insertionSort (fun a b : String => a ≤ b) l.dedup

/-- One step of collect_urls_from_sitemaps (lines 173-184): a failed fetch or
a failed or non-urlset parse contributes nothing; a urlset contributes its
urls. -/
def collect_step (F : String → FetchRes) (P : String → Option SitemapParse)
    (acc : List String) (sm_url : String) : List String :=
  match F sm_url with
  | FetchRes.err _ => acc
  | FetchRes.ok xml =>
    match P xml with
    | some (SitemapParse.urlset u) => acc ++ u
    | _ => acc

/-- Embedding of collect_urls_from_sitemaps (lines 173-184): union the urlset
contents over the given sitemaps and return them sorted and deduplicated. -/
def collect_urls_from_sitemaps (F : String → FetchRes)
    (P : String → Option SitemapParse) (sitemap_urls : List String) : List String :=
  pySortedSet (sitemap_urls.foldl (collect_step F P) [])

/-- The robots.txt fallback path of get_urls_from_sitemaps (lines 164-170):
a fetch failure propagates, an empty Sitemap-line list raises the
no-sitemaps-found error, otherwise the first limit_sitemaps sitemaps are
collected. -/
def robots_fallback (F : String → FetchRes) (P : String → Option SitemapParse)
    (limit_sitemaps : Nat) : Except String (List String) :=
  match F ROBOTS_URL with
  | FetchRes.err e => Except.error e
  | FetchRes.ok robots =>
    if (sitemaps_from_robots robots).isEmpty then
      Except.error "No sitemaps found in robots.txt fallback"
    else
      Except.ok (collect_urls_from_sitemaps F P
        ((sitemaps_from_robots robots).take limit_sitemaps))

/-- Embedding of get_urls_from_sitemaps (lines 148-170): the primary path
succeeds only when the index fetch succeeds, parses as an index document and
lists at least one sitemap; its children are filtered to those containing
"sitemap" (case-insensitively) and capped; any failure of the primary path
falls through to the robots.txt fallback. -/
def get_urls_from_sitemaps (F : String → FetchRes)
    (P : String → Option SitemapParse) (limit_sitemaps : Nat) :
    Except String (List String) :=
  match F SITEMAP_INDEX with
  | FetchRes.err _ => robots_fallback F P limit_sitemaps
  | FetchRes.ok idx =>
    match P idx with
    | some (SitemapParse.index sitemaps) =>
      if sitemaps.isEmpty then robots_fallback F P limit_sitemaps
      else
        Except.ok (collect_urls_from_sitemaps F P
          ((sitemaps.filter
            (fun s => contains_chars "sitemap".data (s.data.map lower_char))).take
              limit_sitemaps))
    | _ => robots_fallback F P limit_sitemaps

/-- The primary path yields sub-sitemaps: the index fetch succeeds, parses as
an index document, and its sitemap list is non-empty. -/
def primary_yields (F : String → FetchRes) (P : String → Option SitemapParse) : Prop :=
  ∃ idx locs, F SITEMAP_INDEX = FetchRes.ok idx ∧
    P idx = some (SitemapParse.index locs) ∧ locs ≠ []

/-- pySortedSet output is sorted. -/
theorem pySortedSet_sorted (l : List String) :
    (pySortedSet l).Sorted (· ≤ ·) :=
  List.sorted_insertionSort _ _

/-- pySortedSet output has no duplicates. -/
theorem pySortedSet_nodup (l : List String) : (pySortedSet l).Nodup :=
  (List.perm_insertionSort _ _).nodup_iff.mpr l.nodup_dedup

/-- pySortedSet output has the same members as its input. -/
theorem pySortedSet_mem (l : List String) (u : String) :
    u ∈ pySortedSet l ↔ u ∈ l :=
  (List.perm_insertionSort _ _).mem_iff.trans (List.mem_dedup)

/-- Membership in one collect step. -/
theorem collect_step_mem (F : String → FetchRes) (P : String → Option SitemapParse)
    (acc : List String) (sm : String) (u : String) :
    u ∈ collect_step F P acc sm ↔ u ∈ acc ∨ ∃ x us, F sm = FetchRes.ok x ∧
      P x = some (SitemapParse.urlset us) ∧ u ∈ us := by
  unfold collect_step
  cases hF : F sm with
  | err e => simp [hF]
  | ok xml =>
    cases hP : P xml with
    | none => simp [hF, hP]
    | some sp =>
      cases sp with
      | index locs => simp [hF, hP]
      | urlset us => simp [hF, hP]
      | unknown => simp [hF, hP]

/-- Membership in the union collected from a list of sitemaps. -/
theorem collect_mem (F : String → FetchRes) (P : String → Option SitemapParse)
    (sitemap_urls : List String) (u : String) :
    u ∈ collect_urls_from_sitemaps F P sitemap_urls ↔
      ∃ sm ∈ sitemap_urls, ∃ x us, F sm = FetchRes.ok x ∧
        P x = some (SitemapParse.urlset us) ∧ u ∈ us := by
  have haux : ∀ (l acc : List String),
      u ∈ l.foldl (collect_step F P) acc ↔ u ∈ acc ∨
        ∃ sm ∈ l, ∃ x us, F sm = FetchRes.ok x ∧
          P x = some (SitemapParse.urlset us) ∧ u ∈ us := by
    intro l
    induction l with
    | nil => intro acc; simp
    | cons sm l ih =>
      intro acc
      rw [List.foldl_cons, ih (collect_step F P acc sm), collect_step_mem]
      constructor
      · rintro ((h1 | h2) | h3)
        · exact Or.inl h1
        · exact Or.inr ⟨sm, by simp, h2⟩
        · obtain ⟨sm2, hsm2, hrest⟩ := h3
          exact Or.inr ⟨sm2, by simp [hsm2], hrest⟩
      · rintro (h1 | h2)
        · exact Or.inl (Or.inl h1)
        · obtain ⟨sm2, hsm2, hrest⟩ := h2
          rcases List.mem_cons.mp hsm2 with rfl | hm
          · exact Or.inl (Or.inr hrest)
          · exact Or.inr ⟨sm2, hm, hrest⟩
  unfold collect_urls_from_sitemaps
  rw [pySortedSet_mem, haux]
  simp

/-- A successful fallback result is a sorted deduplicated collection. -/
theorem robots_fallback_shape (F : String → FetchRes)
    (P : String → Option SitemapParse) (lim : Nat) (res : List String)
    (h : robots_fallback F P lim = Except.ok res) : ∃ l, res = pySortedSet l := by
  unfold robots_fallback at h
  split at h
  · simp at h
  · split at h
    · simp at h
    · simp only [Except.ok.injEq] at h
      exact ⟨_, h.symm⟩

/-- C7: (1) every successful discovery result is sorted and deduplicated;
(2) when the primary index fetch fails entirely but robots.txt is fetchable
and lists sitemaps (within the cap), discovery succeeds and returns exactly
the union of the urls of those sitemaps; (3) when the primary path yields no
sub-sitemap and the fetched robots.txt lists none either, discovery fails
with the no-sitemaps-found error.  (When the robots fetch itself raises, the
fetch error propagates instead; that case is outside the claim scenarios.) -/
theorem get_urls_from_sitemaps_spec (F : String → FetchRes)
    (P : String → Option SitemapParse) (lim : Nat) :
    (∀ res, get_urls_from_sitemaps F P lim = Except.ok res →
      res.Sorted (· ≤ ·) ∧ res.Nodup) ∧
    (∀ e robots, F SITEMAP_INDEX = FetchRes.err e →
      F ROBOTS_URL = FetchRes.ok robots →
      sitemaps_from_robots robots ≠ [] →
      (sitemaps_from_robots robots).length ≤ lim →
      ∃ res, get_urls_from_sitemaps F P lim = Except.ok res ∧
        ∀ u, u ∈ res ↔ ∃ sm ∈ sitemaps_from_robots robots, ∃ x us,
          F sm = FetchRes.ok x ∧ P x = some (SitemapParse.urlset us) ∧ u ∈ us) ∧
    (¬ primary_yields F P → ∀ robots, F ROBOTS_URL = FetchRes.ok robots →
      sitemaps_from_robots robots = [] →
      get_urls_from_sitemaps F P lim =
        Except.error "No sitemaps found in robots.txt fallback") := by
  refine ⟨?_, ?_, ?_⟩
  · intro res h
    have hshape : ∃ l, res = pySortedSet l := by
      unfold get_urls_from_sitemaps at h
      split at h
      · exact robots_fallback_shape F P lim res h
      · split at h
        · split at h
          · exact robots_fallback_shape F P lim res h
          · simp only [Except.ok.injEq] at h
            exact ⟨_, h.symm⟩
        · exact robots_fallback_shape F P lim res h
    obtain ⟨l, rfl⟩ := hshape
    exact ⟨pySortedSet_sorted l, pySortedSet_nodup l⟩
  · intro e robots hFe hFr hne hlen
    have hemp : (sitemaps_from_robots robots).isEmpty = false := by
      simpa [List.isEmpty_iff] using hne
    have hget : get_urls_from_sitemaps F P lim =
        Except.ok (collect_urls_from_sitemaps F P
          ((sitemaps_from_robots robots).take lim)) := by
      unfold get_urls_from_sitemaps robots_fallback
      rw [hFe, hFr]
      simp [hemp]
    rw [List.take_of_length_le hlen] at hget
    exact ⟨_, hget, fun u => collect_mem F P (sitemaps_from_robots robots) u⟩
  · intro hprim robots hFr hsms
    have hfb : robots_fallback F P lim =
        Except.error "No sitemaps found in robots.txt fallback" := by
      unfold robots_fallback
      rw [hFr]
      simp [hsms]
    unfold get_urls_from_sitemaps
    split
    · exact hfb
    · rename_i idx heq
      split
      · rename_i sitemaps heqP
        split
        · exact hfb
        · rename_i hemp
          exact absurd ⟨idx, sitemaps, heq, heqP,
            fun hc => hemp (by simp [hc])⟩ hprim
      · exact hfb

/-- Concrete instantiation of get_urls_from_sitemaps_spec: primary index not
an index document and an empty robots.txt produce the no-sitemaps-found
error. -/
theorem get_urls_from_sitemaps_spec_witness :
    get_urls_from_sitemaps
      (fun u => if u = ROBOTS_URL then FetchRes.ok "" else FetchRes.err "blocked")
      (fun _ => none) 8 =
      Except.error "No sitemaps found in robots.txt fallback" := by
  have hF : (fun u => if u = ROBOTS_URL then FetchRes.ok "" else FetchRes.err "blocked")
      SITEMAP_INDEX = FetchRes.err "blocked" := by decide
  refine (get_urls_from_sitemaps_spec
    (fun u => if u = ROBOTS_URL then FetchRes.ok "" else FetchRes.err "blocked")
    (fun _ => none) 8).2.2 ?_ "" (by decide) (by decide)
  rintro ⟨idx, locs, hidx, _, _⟩
  rw [hF] at hidx
  exact FetchRes.noConfusion hidx
